import Mathlib

/-!
Verification of the Game of Life Online server core (`server/src/game-logic.ts`
plus the draw handlers of `server/src/index.ts`), shallowly embedded in Lean.

Conventions of the embedding:
* A board slot is `Option String` (`null` ↦ `none`, a color string ↦ `some`).
* The source indexes `board[y][x]`; here a `Board` is a curried function
  applied as `b x y`, the same cell.
* JavaScript string truthiness (`if (board[y][x])`) is `truthy`: `none` and
  `some ""` are falsy, every other string is truthy.
* JS `Map` iteration order is insertion order; tallies are association lists
  built in first-occurrence order (`bump` / `tally`).
* `parseInt(s, 16)` returning `NaN` is modelled as `none`; NaN propagation
  through sums and `Math.round`, and `NaN.toString(16) = "NaN"`, are modelled
  by the `Option Nat` pipeline in `averageColors`.
-/

namespace GameOfLife

abbrev Color := String
/-- The board grid: `b x y` is the slot `board[y][x]` of the source. -/
abbrev Board := Nat → Nat → Option Color

def BOARD_WIDTH : Nat := 512
def BOARD_HEIGHT : Nat := 512

/-- A client-submitted cell `{x, y, color}`. Coordinates are JS numbers that
may be negative, hence `Int`. -/
structure Cell where
  x : Int
  y : Int
  color : Color
deriving DecidableEq

/-- A delta entry `{x, y, color}` with `color: Color | null`. -/
structure DeltaChange where
  x : Nat
  y : Nat
  color : Option Color
deriving DecidableEq

structure GameState where
  board : Board
  generation : Nat

/-- JS truthiness of a board slot: `null` and `""` are falsy. -/
def truthy : Option Color → Bool
  | none => false
  | some s => s != ""

/-- `board = Array.from({length: H}, () => Array(W).fill(null))`. -/
def emptyBoard : Board := fun _ _ => none

/-- Initial module state: all-empty board, `generation = 0`. -/
def initialState : GameState := ⟨emptyBoard, 0⟩

/-- Reading `board[ny][nx]` after the source's bounds check
`nx >= 0 && nx < W && ny >= 0 && ny < H`. -/
def boardAt (b : Board) (nx ny : Int) : Option Color :=
  if 0 ≤ nx ∧ nx < (BOARD_WIDTH : Int) ∧ 0 ≤ ny ∧ ny < (BOARD_HEIGHT : Int) then
    b nx.toNat ny.toNat
  else none

/-- The 8 Moore offsets `(dx, dy)` in the source's loop order
(`dy` outer from -1 to 1, `dx` inner from -1 to 1, skipping `(0,0)`). -/
def neighborOffsets : List (Int × Int) :=
  [(-1, -1), (0, -1), (1, -1), (-1, 0), (1, 0), (-1, 1), (0, 1), (1, 1)]

/-- `getLiveNeighbors(x, y)`: colors of the in-bounds truthy Moore neighbors,
in loop order.  (The source wraps each color in `{color}` and `getNewCellColor`
immediately maps the record back to its color; the wrapper is elided.) -/
def getLiveNeighbors (b : Board) (x y : Int) : List Color :=
  neighborOffsets.filterMap (fun d =>
    match boardAt b (x + d.1) (y + d.2) with
    | some c => if c = "" then none else some c
    | none => none)

/-- One step of building the `colorCounts` map:
`colorCounts.set(color, (colorCounts.get(color) || 0) + 1)` on an association
list kept in insertion order, as a JS `Map` is. -/
def bump : List (Color × Nat) → Color → List (Color × Nat)
  | [], c => [(c, 1)]
  | (d, n) :: rest, c => if d = c then (d, n + 1) :: rest else (d, n) :: bump rest c

/-- The `colorCounts` tally of `getNewCellColor`, keys in first-occurrence order. -/
def tally (colors : List Color) : List (Color × Nat) :=
  colors.foldl bump []

/-- The running state of `getNewCellColor`'s loop over `colorCounts.entries()`:
`dominantColor`, `maxCount`, `isTie`. -/
structure ScanState where
  dominant : Option Color
  maxCount : Nat
  isTie : Bool
deriving DecidableEq

/-- One iteration of the dominant-color loop. -/
def scanStep (st : ScanState) (e : Color × Nat) : ScanState :=
  if e.2 > st.maxCount then ⟨some e.1, e.2, false⟩
  else if e.2 = st.maxCount then ⟨st.dominant, st.maxCount, true⟩
  else st

/-- The dominant-color loop over the tally entries. -/
def scanTally (entries : List (Color × Nat)) : ScanState :=
  entries.foldl scanStep ⟨none, 0, false⟩

/-- JS falsiness of `dominantColor : Color | null`. -/
def jsFalsy : Option Color → Bool
  | none => true
  | some s => s == ""

/-- Value of one hex digit as accepted by `parseInt(_, 16)`. -/
def hexVal (c : Char) : Option Nat :=
  if '0' ≤ c ∧ c ≤ '9' then some (c.toNat - 48)
  else if 'a' ≤ c ∧ c ≤ 'f' then some (c.toNat - 87)
  else if 'A' ≤ c ∧ c ≤ 'F' then some (c.toNat - 55)
  else none

/-- Accumulate further hex digits; parsing stops at the first non-digit. -/
def hexAcc : Nat → List Char → Nat
  | acc, [] => acc
  | acc, c :: rest =>
    match hexVal c with
    | none => acc
    | some v => hexAcc (16 * acc + v) rest

/-- `parseInt(s, 16)`: longest hex-digit prefix, `NaN` (here `none`) when the
first character is not a hex digit. -/
def parseIntHex (s : List Char) : Option Nat :=
  match s with
  | [] => none
  | c :: rest =>
    match hexVal c with
    | none => none
    | some v => some (hexAcc v rest)

/-- `s.slice(a, b)` on a string, as a character list. -/
def sliceChars (s : Color) (a b : Nat) : List Char :=
  (s.toList.drop a).take (b - a)

/-- Addition lifted to `Option Nat`, `none` (NaN) absorbing. -/
def optAdd : Option Nat → Option Nat → Option Nat
  | some a, some b => some (a + b)
  | _, _ => none

/-- The accumulation loop of `averageColors`: `totalR`, `totalG`, `totalB`. -/
def sumRGB (colors : List Color) : Option Nat × Option Nat × Option Nat :=
  colors.foldl (fun acc hex =>
    (optAdd acc.1 (parseIntHex (sliceChars hex 1 3)),
     optAdd acc.2.1 (parseIntHex (sliceChars hex 3 5)),
     optAdd acc.2.2 (parseIntHex (sliceChars hex 5 7)))) (some 0, some 0, some 0)

/-- `Math.round(t / n)` for nonnegative `t` and positive `n`: round half up. -/
def jsRoundDiv (t n : Nat) : Nat := (2 * t + n) / (2 * n)

/-- `c.toString(16).padStart(2, '0')`, with the NaN case producing `"NaN"`
(which `padStart` leaves unchanged). -/
def channelHex : Option Nat → List Char
  | none => ['N', 'a', 'N']
  | some n =>
    let ds := Nat.toDigits 16 n
    if ds.length < 2 then List.replicate (2 - ds.length) '0' ++ ds else ds

/-- `averageColors(colors)`: `"#FFFFFF"` on the empty list, otherwise the
channel-wise rounded mean rendered as lowercase hex. -/
def averageColors (colors : List Color) : Color :=
  if colors.length = 0 then "#FFFFFF"
  else
    let t := sumRGB colors
    let n := colors.length
    String.mk ('#' :: (channelHex (t.1.map (fun v => jsRoundDiv v n)) ++
                       channelHex (t.2.1.map (fun v => jsRoundDiv v n)) ++
                       channelHex (t.2.2.map (fun v => jsRoundDiv v n))))

/-- The dominant-color / tie logic of `getNewCellColor`, as a function of the
neighbor color list: tally, scan, then
`if (isTie || !dominantColor) return averageColors(neighborColors); return dominantColor;`. -/
def resolveColor (neighborColors : List Color) : Color :=
  let st := scanTally (tally neighborColors)
  match st.dominant with
  | none => averageColors neighborColors
  | some c => if st.isTie || c == "" then averageColors neighborColors else c

/-- `getNewCellColor(x, y)`: resolve from the live neighbors of the current
(pre-tick) board. -/
def getNewCellColor (b : Board) (x y : Int) : Color :=
  resolveColor (getLiveNeighbors b x y)

/-- Modelled from the spec: the structural live-neighbor count of the external
`game-life` library (`GameEngine.nextGeneration`), whose source is not part of
this repository.  Per the spec a cell's liveness is decided by the number of
live cells among the 8 in-bounds Moore neighbors, where liveness of the
previous generation is exactly the slots the server marked live
(`gameBoard.setCell(x, y, true)` for every truthy `board[y][x]`). -/
def mooreCount (b : Board) (x y : Int) : Nat :=
  (neighborOffsets.map (fun d =>
    if truthy (boardAt b (x + d.1) (y + d.2)) then 1 else 0)).sum

/-- Modelled from the spec: the survival rule of the external `game-life`
library — a live cell with exactly 2 or 3 live neighbors survives, a dead cell
with exactly 3 live neighbors is born, everything else is dead. -/
def nextAlive (b : Board) (x y : Int) : Bool :=
  if truthy (boardAt b x y) then mooreCount b x y == 2 || mooreCount b x y == 3
  else mooreCount b x y == 3

/-- The inner body of `calculateNextStep`'s rebuild loop: the value written to
`newBoard[y][x]` — survivors keep `board[y][x]`, newborns get
`getNewCellColor(x, y)` evaluated on the pre-tick board, dead cells get `null`.
Out-of-range slots do not exist in the source's array, modelled as `none`. -/
def nextBoardFn (b : Board) : Board := fun x y =>
  if x < BOARD_WIDTH ∧ y < BOARD_HEIGHT then
    if nextAlive b x y then
      if truthy (b x y) then b x y
      else some (getNewCellColor b x y)
    else none
  else none

/-- The result record of `calculateNextStep` together with the module state it
leaves behind. -/
structure StepResult where
  changes : List DeltaChange
  nextGeneration : Nat
  state : GameState

/-- `calculateNextStep()`: bump the generation, compute the next board from
the pre-tick board, and record a `DeltaChange` for every position whose new
value differs from the old (loop order: `y` outer, `x` inner). -/
def calculateNextStep (st : GameState) : StepResult :=
  let b := st.board
  let newB := nextBoardFn b
  let changes := (List.range BOARD_HEIGHT).flatMap (fun y =>
    (List.range BOARD_WIDTH).filterMap (fun x =>
      if newB x y ≠ b x y then some (⟨x, y, newB x y⟩ : DeltaChange) else none))
  ⟨changes, st.generation + 1, ⟨newB, st.generation + 1⟩⟩

/-- The bounds test of `commitCells`:
`cell.x >= 0 && cell.x < BOARD_WIDTH && cell.y >= 0 && cell.y < BOARD_HEIGHT`. -/
def cellInBounds (c : Cell) : Bool :=
  decide (0 ≤ c.x ∧ c.x < (BOARD_WIDTH : Int) ∧ 0 ≤ c.y ∧ c.y < (BOARD_HEIGHT : Int))

/-- The body of `commitCells`'s loop: write the cell's color verbatim at its
coordinates when in bounds (`board[cell.y][cell.x] = cell.color`), otherwise
leave the board untouched. -/
def applyCell (bd : Board) (cell : Cell) : Board :=
  if cellInBounds cell then
    fun i j => if i = cell.x.toNat ∧ j = cell.y.toNat then some cell.color else bd i j
  else bd

/-- `commitCells(cells)`: apply each submitted cell in order; returns nothing
in the source, here the updated board. -/
def commitCells (cells : List Cell) (b : Board) : Board :=
  cells.foldl applyCell b

/-- The `immediate_draw` message broadcast to every open socket. -/
structure ImmediateDrawMsg where
  cells : List Cell
  clientId : String
deriving DecidableEq

/-- The JSON body answered by `POST /api/draw`. -/
structure DrawResponse where
  success : Bool
  cellsDrawn : Nat
deriving DecidableEq

/-- The draw path shared by `POST /api/draw` and the WebSocket `draw` message:
`commitCells(cells)`, broadcast `{type: "immediate_draw", cells, clientId}`,
and (HTTP only) respond `{success: true, cellsDrawn: cells.length}`. -/
def handleDraw (cells : List Cell) (clientId : String) (st : GameState) :
    GameState × ImmediateDrawMsg × DrawResponse :=
  (⟨commitCells cells st.board, st.generation⟩, ⟨cells, clientId⟩, ⟨true, cells.length⟩)

/-- `getFullBoardState()`. -/
def getFullBoardState (st : GameState) : Board × Nat :=
  (st.board, st.generation)

/-! ### Spec-side definitions, for refinement comparison

These follow the spec's words (the dominant/tie contract of
`NeighborColorResolver`), to be compared with the source-derived
`resolveColor`. -/

/-- Maximum of a list of naturals, 0 on the empty list. -/
def maxNat (ns : List Nat) : Nat := ns.foldl max 0

/-- The highest tally among the neighbor colors: the spec's
"highest tally" over occurrence counts. -/
def specMaxTally (colors : List Color) : Nat :=
  maxNat (colors.map (fun c => colors.count c))

/-- The neighbor colors tied for the maximum tally, with multiplicity. -/
def specTiedColors (colors : List Color) : List Color :=
  colors.filter (fun c => colors.count c == specMaxTally colors)

/-- The spec's tie condition: two or more distinct colors share the highest
tally. -/
def specHasTie (colors : List Color) : Prop :=
  ∃ c ∈ colors, ∃ d ∈ colors,
    c ≠ d ∧ colors.count c = specMaxTally colors ∧
    colors.count d = specMaxTally colors

instance (colors : List Color) : Decidable (specHasTie colors) := by
  unfold specHasTie; infer_instance

/-! ### Concrete inputs used by witnesses and counterexamples -/

/-- A cell whose x-coordinate overflows the 512-wide grid. -/
def oobCell : Cell := ⟨600, 0, "#ff0000"⟩

/-- A cell submitting the empty string as its color. -/
def emptyStrCell : Cell := ⟨3, 4, ""⟩

/-- Three live cells in a row: `(0,1)`, `(1,1)`, `(2,1)`. -/
def blinkerBoard : Board := fun i j =>
  if i = 0 ∧ j = 1 then some "#ff0000"
  else if i = 1 ∧ j = 1 then some "#00ff00"
  else if i = 2 ∧ j = 1 then some "#0000ff"
  else none

/-- Three live cells of three distinct colors, all neighbors of `(1,1)`. -/
def triBoard : Board := fun i j =>
  if i = 0 ∧ j = 0 then some "#000000"
  else if i = 1 ∧ j = 0 then some "#ffffff"
  else if i = 2 ∧ j = 0 then some "#ff0000"
  else none

example : averageColors ["#000000", "#FFFFFF"] = "#808080" := by decide
example : averageColors [] = "#FFFFFF" := by decide
example : resolveColor ["#ff0000", "#ff0000", "#00ff00"] = "#ff0000" := by decide
example : resolveColor ["#000000", "#ffffff", "#ff0000"] = "#aa5555" := by decide

/-! ### Basic lemmas -/

theorem averageColors_ne_empty (colors : List Color) : averageColors colors ≠ "" := by
  unfold averageColors
  split
  · decide
  · intro h
    have h2 := congrArg String.toList h
    simp at h2

theorem resolveColor_ne_empty (l : List Color) : resolveColor l ≠ "" := by
  simp only [resolveColor]
  split
  · exact averageColors_ne_empty l
  · split
    · exact averageColors_ne_empty l
    · rename_i c heq hcond
      intro h
      rw [h] at hcond
      simp at hcond

theorem boardAt_natCast (b : Board) (x y : Nat)
    (hx : x < BOARD_WIDTH) (hy : y < BOARD_HEIGHT) :
    boardAt b x y = b x y := by
  have hx5 : x < 512 := hx
  have hy5 : y < 512 := hy
  unfold boardAt
  rw [if_pos]
  · simp
  · refine ⟨by omega, ?_, by omega, ?_⟩
    · show (x : Int) < ((512 : Nat) : Int)
      omega
    · show (y : Int) < ((512 : Nat) : Int)
      omega

theorem truthy_nextBoardFn (b : Board) (x y : Nat)
    (hx : x < BOARD_WIDTH) (hy : y < BOARD_HEIGHT) :
    truthy (nextBoardFn b x y) = nextAlive b x y := by
  unfold nextBoardFn
  rw [if_pos ⟨hx, hy⟩]
  cases hna : nextAlive b x y with
  | false => rfl
  | true =>
    simp only [if_pos trivial, if_true]
    cases hc : truthy (b x y) with
    | true => simp [hc]
    | false =>
      rw [if_neg (by simp [hc])]
      have hne := resolveColor_ne_empty (getLiveNeighbors b x y)
      simp [truthy, getNewCellColor, hne]

theorem mooreCount_congr (b c : Board)
    (h : ∀ i j : Int, truthy (boardAt b i j) = truthy (boardAt c i j))
    (x y : Int) : mooreCount b x y = mooreCount c x y := by
  unfold mooreCount
  congr 1
  exact List.map_congr_left (fun d _ => by rw [h])

/-- Membership characterization of the delta list: shared backbone of the
claims about `calculateNextStep`'s changes. -/
theorem mem_changes_iff (st : GameState) (d : DeltaChange) :
    d ∈ (calculateNextStep st).changes ↔
      (d.x < BOARD_WIDTH ∧ d.y < BOARD_HEIGHT ∧
       nextBoardFn st.board d.x d.y ≠ st.board d.x d.y ∧
       d.color = nextBoardFn st.board d.x d.y) := by
  obtain ⟨dx, dy, dcol⟩ := d
  simp only [calculateNextStep, List.mem_flatMap, List.mem_filterMap, List.mem_range]
  constructor
  · rintro ⟨y, hy, x, hx, hfx⟩
    by_cases hne : nextBoardFn st.board x y ≠ st.board x y
    · rw [if_pos hne] at hfx
      obtain ⟨rfl, rfl, rfl⟩ : x = dx ∧ y = dy ∧ nextBoardFn st.board x y = dcol := by
        injection hfx with hfx
        injection hfx with h1 h2 h3
        exact ⟨h1, h2, h3⟩
      exact ⟨hx, hy, hne, rfl⟩
    · rw [if_neg hne] at hfx
      cases hfx
  · rintro ⟨hx, hy, hne, hc⟩
    refine ⟨dy, hy, dx, hx, ?_⟩
    rw [if_pos hne, hc]

theorem mooreCount_empty (x y : Int) : mooreCount emptyBoard x y = 0 := by
  simp [mooreCount, neighborOffsets, boardAt, emptyBoard, truthy]

theorem nextBoardFn_empty (x y : Nat) : nextBoardFn emptyBoard x y = none := by
  unfold nextBoardFn
  split
  · rw [if_neg]
    simp only [nextAlive, mooreCount_empty, boardAt, emptyBoard, ite_self]
    simp [truthy]
  · rfl

/-! ### Claim theorems -/

/-- C2: one simulation step makes an in-grid cell live iff it was live with
exactly 2 or 3 live Moore neighbors, or dead with exactly 3; every other cell
is dead afterwards, and the neighbor count is structural — it depends only on
the liveness mask of the board, not on the colors. -/
theorem c2_survival_rule :
    (∀ (b : Board) (x y : Nat), x < BOARD_WIDTH → y < BOARD_HEIGHT →
      (truthy (nextBoardFn b x y) = true ↔
        ((truthy (b x y) = true ∧ (mooreCount b x y = 2 ∨ mooreCount b x y = 3)) ∨
         (truthy (b x y) = false ∧ mooreCount b x y = 3)))) ∧
    (∀ (b c : Board),
      (∀ i j : Int, truthy (boardAt b i j) = truthy (boardAt c i j)) →
      ∀ x y : Int, mooreCount b x y = mooreCount c x y) := by
  constructor
  · intro b x y hx hy
    rw [truthy_nextBoardFn b x y hx hy]
    unfold nextAlive
    rw [boardAt_natCast b x y hx hy]
    cases hc : truthy (b x y) <;> simp [hc]
  · exact mooreCount_congr

/-- C2 witness: instantiated on the three-cell blinker board. -/
theorem c2_survival_rule_witness :
    (truthy (nextBoardFn blinkerBoard 1 1) = true ↔
      ((truthy (blinkerBoard 1 1) = true ∧
        (mooreCount blinkerBoard 1 1 = 2 ∨ mooreCount blinkerBoard 1 1 = 3)) ∨
       (truthy (blinkerBoard 1 1) = false ∧ mooreCount blinkerBoard 1 1 = 3))) ∧
    mooreCount blinkerBoard 0 0 = mooreCount blinkerBoard 0 0 :=
  ⟨c2_survival_rule.1 blinkerBoard 1 1 (by decide) (by decide),
   c2_survival_rule.2 blinkerBoard blinkerBoard (fun i j => rfl) 0 0⟩

/-- C3: the change list of `calculateNextStep` contains exactly the grid
positions whose post-step value differs from their pre-step value, paired with
the new value; unchanged positions never appear. -/
theorem c3_changes_exact (st : GameState) (d : DeltaChange) :
    d ∈ (calculateNextStep st).changes ↔
      (d.x < BOARD_WIDTH ∧ d.y < BOARD_HEIGHT ∧
       nextBoardFn st.board d.x d.y ≠ st.board d.x d.y ∧
       d.color = nextBoardFn st.board d.x d.y) :=
  mem_changes_iff st d

/-- C4: within one tick, a survivor keeps its exact pre-tick color, a newborn
is colored by `getNewCellColor` evaluated on the pre-tick board, and every
other cell is Empty in the next board. -/
theorem c4_pre_tick_resolution (b : Board) (x y : Nat)
    (hx : x < BOARD_WIDTH) (hy : y < BOARD_HEIGHT) :
    (truthy (b x y) = true → nextAlive b x y = true →
      nextBoardFn b x y = b x y) ∧
    (truthy (b x y) = false → nextAlive b x y = true →
      nextBoardFn b x y = some (getNewCellColor b x y)) ∧
    (nextAlive b x y = false → nextBoardFn b x y = none) := by
  unfold nextBoardFn
  rw [if_pos ⟨hx, hy⟩]
  refine ⟨fun hc hna => ?_, fun hc hna => ?_, fun hna => ?_⟩
  · rw [if_pos hna, if_pos hc]
  · rw [if_pos hna, if_neg (by simp [hc])]
  · rw [if_neg (by simp [hna])]

/-- C4 witness: on the blinker board, `(1,0)` is newborn and `(1,1)` survives
with its exact color. -/
theorem c4_pre_tick_resolution_witness :
    nextBoardFn blinkerBoard 1 0 = some (getNewCellColor blinkerBoard 1 0) ∧
    nextBoardFn blinkerBoard 1 1 = blinkerBoard 1 1 :=
  ⟨(c4_pre_tick_resolution blinkerBoard 1 0 (by decide) (by decide)).2.1
      (by decide) (by decide),
   (c4_pre_tick_resolution blinkerBoard 1 1 (by decide) (by decide)).1
      (by decide) (by decide)⟩

/-- C7: every `calculateNextStep` advances the generation by exactly 1 and
returns the new value; the draw path never touches the counter; stepping an
all-empty board yields zero changes while the generation still advances. -/
theorem c7_generation_monotone (st : GameState) (cells : List Cell)
    (cid : String) (g : Nat) :
    (calculateNextStep st).nextGeneration = st.generation + 1 ∧
    (calculateNextStep st).state.generation = st.generation + 1 ∧
    (handleDraw cells cid st).1.generation = st.generation ∧
    (calculateNextStep ⟨emptyBoard, g⟩).changes = [] := by
  refine ⟨rfl, rfl, rfl, ?_⟩
  rw [List.eq_nil_iff_forall_not_mem]
  intro d hd
  obtain ⟨-, -, hne, -⟩ := (mem_changes_iff ⟨emptyBoard, g⟩ d).mp hd
  exact hne (by rw [nextBoardFn_empty]; rfl)

/-- C8: a newborn position with zero live neighbors resolves to `#FFFFFF`. -/
theorem c8_no_neighbor_fallback (b : Board) (x y : Int)
    (h : getLiveNeighbors b x y = []) : getNewCellColor b x y = "#FFFFFF" := by
  unfold getNewCellColor
  rw [h]
  decide

/-- C8 witness: the empty board around `(5,5)`. -/
theorem c8_no_neighbor_fallback_witness :
    getLiveNeighbors emptyBoard 5 5 = [] ∧
    getNewCellColor emptyBoard 5 5 = "#FFFFFF" :=
  ⟨by decide, c8_no_neighbor_fallback emptyBoard 5 5 (by decide)⟩

/-- C5 counterexample: one out-of-bounds cell is applied to nothing
(`commitCells` leaves the board untouched), yet the draw endpoint reports a
count of 1 — `commitCells` itself returns no count, and the count the endpoint
returns is the submitted length, not the applied length. -/
theorem c5_counterexample :
    (handleDraw [oobCell] "client" initialState).2.2.cellsDrawn = 1 ∧
    ([oobCell].filter cellInBounds).length = 0 ∧
    commitCells [oobCell] emptyBoard = emptyBoard :=
  ⟨rfl, rfl, rfl⟩

/-- C5 amended: `commitCells` writes exactly the in-bounds subset (discarding
out-of-bounds entries without aborting the batch), but it returns no count;
the draw endpoint's `cellsDrawn` is the number of submitted cells, counting
the discarded ones. -/
theorem c5_amended_bounds_filter (cells : List Cell) (b : Board)
    (cid : String) (st : GameState) :
    commitCells cells b = commitCells (cells.filter cellInBounds) b ∧
    (handleDraw cells cid st).2.2.cellsDrawn = cells.length := by
  refine ⟨?_, rfl⟩
  induction cells generalizing b with
  | nil => rfl
  | cons c rest ih =>
    by_cases h : cellInBounds c
    · rw [List.filter_cons_of_pos h]
      show commitCells rest (applyCell b c) = commitCells (rest.filter cellInBounds) (applyCell b c)
      exact ih (applyCell b c)
    · rw [List.filter_cons_of_neg (by simpa using h)]
      show commitCells rest (applyCell b c) = commitCells (rest.filter cellInBounds) b
      rw [show applyCell b c = b from if_neg h]
      exact ih b

/-- C6 counterexample: a submission consisting of one out-of-bounds cell is
echoed verbatim in the `immediate_draw` message, although its applied
(in-bounds) subset is empty — discarded cells do appear in the echo. -/
theorem c6_counterexample :
    cellInBounds oobCell = false ∧
    (handleDraw [oobCell] "client" initialState).2.1.cells ≠
      [oobCell].filter cellInBounds := by
  exact ⟨rfl, by decide⟩

/-- C6 amended: the `immediate_draw` broadcast echoes the submitted cell list
verbatim — all submitted cells, including out-of-bounds ones that
`commitCells` discards — while the board receives only the applied subset. -/
theorem c6_amended_echo_verbatim (cells : List Cell) (cid : String)
    (st : GameState) :
    (handleDraw cells cid st).2.1.cells = cells ∧
    (handleDraw cells cid st).2.1.clientId = cid ∧
    (handleDraw cells cid st).1.board = commitCells cells st.board :=
  ⟨rfl, rfl, rfl⟩

/-- C10: `commitCells` stores the submitted color string verbatim for every
in-bounds cell — no validation — and a stored empty string is falsy, so the
step's liveness test (`if (board[y][x])`) treats that cell as dead. -/
theorem c10_no_color_validation :
    (∀ (cells : List Cell) (b : Board) (cell : Cell), cellInBounds cell = true →
      commitCells (cells ++ [cell]) b cell.x.toNat cell.y.toNat = some cell.color) ∧
    (∀ (b : Board) (x y : Nat), b x y = some "" → truthy (b x y) = false) := by
  constructor
  · intro cells b cell h
    unfold commitCells
    rw [List.foldl_append]
    show applyCell (commitCells cells b) cell _ _ = _
    unfold applyCell
    rw [if_pos h, if_pos ⟨rfl, rfl⟩]
  · intro b x y h
    rw [h]
    rfl

/-- C10 witness: submitting the color `""` at `(3,4)` stores it verbatim, and
the stored slot is falsy for the liveness test. -/
theorem c10_no_color_validation_witness :
    commitCells ([] ++ [emptyStrCell]) emptyBoard 3 4 = some "" ∧
    truthy (commitCells ([] ++ [emptyStrCell]) emptyBoard 3 4) = false := by
  have h1 := c10_no_color_validation.1 [] emptyBoard emptyStrCell (by decide)
  exact ⟨h1, c10_no_color_validation.2 _ 3 4 h1⟩

/-! ### Maximum-of-a-list helpers -/

theorem le_foldl_max (ns : List Nat) (a : Nat) : a ≤ ns.foldl max a := by
  induction ns generalizing a with
  | nil => exact le_refl a
  | cons n ns ih => exact le_trans (le_max_left a n) (ih (max a n))

theorem mem_le_foldl_max (ns : List Nat) (a : Nat) :
    ∀ n ∈ ns, n ≤ ns.foldl max a := by
  induction ns generalizing a with
  | nil => intro n h; cases h
  | cons m ns ih =>
    intro n h
    rcases List.mem_cons.mp h with rfl | h2
    · exact le_trans (le_max_right a n) (le_foldl_max ns (max a n))
    · exact ih (max a m) n h2

theorem foldl_max_choice (ns : List Nat) (a : Nat) :
    ns.foldl max a = a ∨ ns.foldl max a ∈ ns := by
  induction ns generalizing a with
  | nil => left; rfl
  | cons n ns ih =>
    rcases ih (max a n) with h | h
    · rcases max_choice a n with hm | hm
      · left; rw [List.foldl_cons, h, hm]
      · right; rw [List.foldl_cons, h, hm]; exact List.mem_cons_self n ns
    · right; exact List.mem_cons_of_mem n h

theorem maxNat_ge {ns : List Nat} {n : Nat} (h : n ∈ ns) : n ≤ maxNat ns :=
  mem_le_foldl_max ns 0 n h

theorem maxNat_mem {ns : List Nat} (h : ns ≠ []) : maxNat ns ∈ ns := by
  rcases foldl_max_choice ns 0 with h0 | hm
  · cases ns with
    | nil => exact absurd rfl h
    | cons n rest =>
      have hn : n ≤ maxNat (n :: rest) := maxNat_ge (List.mem_cons_self n rest)
      have h00 : maxNat (n :: rest) = 0 := h0
      rw [h00] at hn ⊢
      have : n = 0 := Nat.le_zero.mp hn
      rw [← this]
      exact List.mem_cons_self n rest
  · exact hm

theorem maxNat_append_singleton (ns : List Nat) (n : Nat) :
    maxNat (ns ++ [n]) = max (maxNat ns) n := by
  simp [maxNat, List.foldl_append]

/-- Two distinct values have counts summing to at most the length. -/
theorem count_pair_le_length (l : List Color) {c d : Color} (h : c ≠ d) :
    l.count c + l.count d ≤ l.length := by
  induction l with
  | nil => simp
  | cons a l ih =>
    rw [List.count_cons, List.count_cons, List.length_cons]
    by_cases h1 : c = a <;> by_cases h2 : d = a
    · exact absurd (h1.trans h2.symm) h
    · rw [if_pos (beq_iff_eq.mpr h1.symm),
         if_neg (fun hh => h2 (beq_iff_eq.mp hh).symm)]
      omega
    · rw [if_neg (fun hh => h1 (beq_iff_eq.mp hh).symm),
         if_pos (beq_iff_eq.mpr h2.symm)]
      omega
    · rw [if_neg (fun hh => h1 (beq_iff_eq.mp hh).symm),
         if_neg (fun hh => h2 (beq_iff_eq.mp hh).symm)]
      omega

theorem two_le_length_of_two_mem {α : Type} {xs : List α} {a b : α}
    (ha : a ∈ xs) (hb : b ∈ xs) (hab : a ≠ b) : 2 ≤ xs.length := by
  cases xs with
  | nil => cases ha
  | cons x rest =>
    cases rest with
    | nil =>
      rcases List.mem_singleton.mp ha with rfl
      rcases List.mem_singleton.mp hb with rfl
      exact absurd rfl hab
    | cons y rest2 => simp [List.length_cons]

/-! ### The `colorCounts` tally: keys, counts, nodup -/

theorem bump_keys (acc : List (Color × Nat)) (c : Color) :
    (bump acc c).map Prod.fst =
      if c ∈ acc.map Prod.fst then acc.map Prod.fst
      else acc.map Prod.fst ++ [c] := by
  induction acc with
  | nil => simp [bump]
  | cons e acc ih =>
    obtain ⟨d, n⟩ := e
    by_cases h : d = c
    · subst h
      rw [show bump ((d, n) :: acc) d = (d, n + 1) :: acc from by simp [bump]]
      simp [List.mem_cons]
    · rw [show bump ((d, n) :: acc) c = (d, n) :: bump acc c from by simp [bump, h]]
      rw [List.map_cons, List.map_cons, ih]
      by_cases hc : c ∈ acc.map Prod.fst
      · rw [if_pos hc, if_pos (by simp [hc])]
      · rw [if_neg hc, if_neg (by simp [hc, Ne.symm h])]
        rfl

theorem bump_cases (acc : List (Color × Nat)) (c : Color)
    (hnd : (acc.map Prod.fst).Nodup) :
    ∀ e ∈ bump acc c,
      (e.1 = c ∧ c ∉ acc.map Prod.fst ∧ e.2 = 1) ∨
      (e.1 = c ∧ ∃ n, (c, n) ∈ acc ∧ e.2 = n + 1) ∨
      (e.1 ≠ c ∧ e ∈ acc) := by
  induction acc with
  | nil =>
    intro e he
    simp only [bump, List.mem_singleton] at he
    rw [he]
    exact Or.inl ⟨rfl, by simp, rfl⟩
  | cons f acc ih =>
    obtain ⟨d, n⟩ := f
    rw [List.map_cons, List.nodup_cons] at hnd
    obtain ⟨hdnot, hnd2⟩ := hnd
    intro e he
    by_cases h : d = c
    · subst h
      rw [show bump ((d, n) :: acc) d = (d, n + 1) :: acc from by simp [bump]] at he
      rcases List.mem_cons.mp he with rfl | he2
      · exact Or.inr (Or.inl ⟨rfl, n, List.mem_cons_self _ _, rfl⟩)
      · refine Or.inr (Or.inr ⟨?_, List.mem_cons_of_mem _ he2⟩)
        intro hec
        have hmm2 : e.1 ∈ acc.map Prod.fst := List.mem_map_of_mem Prod.fst he2
        rw [hec] at hmm2
        exact hdnot hmm2
    · rw [show bump ((d, n) :: acc) c = (d, n) :: bump acc c
          from by simp [bump, h]] at he
      rcases List.mem_cons.mp he with rfl | he2
      · exact Or.inr (Or.inr ⟨h, List.mem_cons_self _ _⟩)
      · rcases ih hnd2 e he2 with ⟨h1, h2, h3⟩ | ⟨h1, m, hm, h3⟩ | ⟨h1, h2⟩
        · refine Or.inl ⟨h1, ?_, h3⟩
          intro hc
          rw [List.map_cons] at hc
          rcases List.mem_cons.mp hc with hc1 | hc2
          · exact h hc1.symm
          · exact h2 hc2
        · exact Or.inr (Or.inl ⟨h1, m, List.mem_cons_of_mem _ hm, h3⟩)
        · exact Or.inr (Or.inr ⟨h1, List.mem_cons_of_mem _ h2⟩)

theorem bump_keys_nodup {acc : List (Color × Nat)} (c : Color)
    (hnd : (acc.map Prod.fst).Nodup) : ((bump acc c).map Prod.fst).Nodup := by
  rw [bump_keys]
  split
  · exact hnd
  · rename_i hc
    exact hnd.append (List.nodup_singleton c)
      (fun a ha hb => by rw [List.mem_singleton.mp hb] at ha; exact hc ha)

theorem tally_loop (l : List Color) :
    ∀ (acc : List (Color × Nat)) (p : List Color),
      (acc.map Prod.fst).Nodup →
      (∀ c, c ∈ acc.map Prod.fst ↔ c ∈ p) →
      (∀ e ∈ acc, e.2 = p.count e.1) →
      ((l.foldl bump acc).map Prod.fst).Nodup ∧
      (∀ c, c ∈ (l.foldl bump acc).map Prod.fst ↔ c ∈ p ++ l) ∧
      (∀ e ∈ l.foldl bump acc, e.2 = (p ++ l).count e.1) := by
  induction l with
  | nil =>
    intro acc p h1 h2 h3
    refine ⟨h1, fun c => ?_, fun e he => ?_⟩
    · simpa using h2 c
    · simpa using h3 e he
  | cons c l ih =>
    intro acc p h1 h2 h3
    have h1b : ((bump acc c).map Prod.fst).Nodup := bump_keys_nodup c h1
    have h2b : ∀ d, d ∈ (bump acc c).map Prod.fst ↔ d ∈ p ++ [c] := by
      intro d
      rw [bump_keys]
      by_cases hc : c ∈ acc.map Prod.fst
      · rw [if_pos hc]
        constructor
        · intro hd
          exact List.mem_append.mpr (Or.inl ((h2 d).mp hd))
        · intro hd
          rcases List.mem_append.mp hd with hd1 | hd2
          · exact (h2 d).mpr hd1
          · rw [List.mem_singleton.mp hd2]; exact hc
      · rw [if_neg hc]
        simp only [List.mem_append, List.mem_singleton, h2 d]
    have h3b : ∀ e ∈ bump acc c, e.2 = (p ++ [c]).count e.1 := by
      intro e he
      rcases bump_cases acc c h1 e he with
        ⟨he1, hnin, he2⟩ | ⟨he1, m, hm, he2⟩ | ⟨hne, hmem⟩
      · rw [he2, he1, List.count_append]
        have hcp : c ∉ p := fun hp => hnin ((h2 c).mpr hp)
        rw [List.count_eq_zero.mpr hcp]
        simp
      · rw [he2, he1, List.count_append]
        have hm2 := h3 (c, m) hm
        simp only at hm2
        rw [← hm2]
        simp
      · rw [List.count_append]
        have h4 := h3 e hmem
        have h5 : List.count e.1 [c] = 0 :=
          List.count_eq_zero.mpr (by simp [hne])
        rw [h5, Nat.add_zero]
        exact h4
    have hmain := ih (bump acc c) (p ++ [c]) h1b h2b h3b
    refine ⟨hmain.1, fun d => ?_, fun e he => ?_⟩
    · simpa [List.append_assoc] using hmain.2.1 d
    · simpa [List.append_assoc] using hmain.2.2 e he

theorem tally_keys_nodup (l : List Color) : ((tally l).map Prod.fst).Nodup :=
  (tally_loop l [] [] (by simp) (by simp) (by simp)).1

theorem mem_tally_keys (l : List Color) (c : Color) :
    c ∈ (tally l).map Prod.fst ↔ c ∈ l := by
  simpa using (tally_loop l [] [] (by simp) (by simp) (by simp)).2.1 c

theorem tally_count {l : List Color} : ∀ e ∈ tally l, e.2 = l.count e.1 := by
  intro e he
  simpa using (tally_loop l [] [] (by simp) (by simp) (by simp)).2.2 e he

theorem tally_count_pos {l : List Color} : ∀ e ∈ tally l, 1 ≤ e.2 := by
  intro e he
  rw [tally_count e he]
  have h : e.1 ∈ l := (mem_tally_keys l e.1).mp (List.mem_map_of_mem Prod.fst he)
  exact List.count_pos_iff.mpr h

/-! ### Characterization of the dominant-color scan -/

theorem scanTally_append (es : List (Color × Nat)) (e : Color × Nat) :
    scanTally (es ++ [e]) = scanStep (scanTally es) e := by
  simp [scanTally, List.foldl_append]

/-- After the loop over the tally entries: `maxCount` is the maximum tally,
`dominantColor` is the first entry attaining it, and `isTie` holds iff at
least two entries attain it. -/
theorem scan_char : ∀ es : List (Color × Nat), (∀ e ∈ es, 1 ≤ e.2) →
    (scanTally es).maxCount = maxNat (es.map Prod.snd) ∧
    (scanTally es).dominant =
      (es.find? (fun f => f.2 == maxNat (es.map Prod.snd))).map Prod.fst ∧
    ((scanTally es).isTie = true ↔
      2 ≤ es.countP (fun f => f.2 == maxNat (es.map Prod.snd))) := by
  intro es
  induction es using List.reverseRecOn with
  | nil =>
    intro _
    refine ⟨rfl, rfl, ?_⟩
    simp [scanTally]
  | append_singleton es e ih =>
    intro hpos
    have hpos2 : ∀ f ∈ es, 1 ≤ f.2 :=
      fun f hf => hpos f (List.mem_append.mpr (Or.inl hf))
    have he1 : 1 ≤ e.2 :=
      hpos e (List.mem_append.mpr (Or.inr (List.mem_singleton.mpr rfl)))
    obtain ⟨ihmax, ihdom, ihtie⟩ := ih hpos2
    have hM : maxNat ((es ++ [e]).map Prod.snd) =
        max (maxNat (es.map Prod.snd)) e.2 := by
      rw [List.map_append, List.map_singleton, maxNat_append_singleton]
    have hsc : scanTally (es ++ [e]) = scanStep (scanTally es) e :=
      scanTally_append es e
    rcases Nat.lt_trichotomy (maxNat (es.map Prod.snd)) e.2 with hgt | heq | hlt
    · -- new entry strictly exceeds the running maximum
      have hmax : maxNat ((es ++ [e]).map Prod.snd) = e.2 := by
        rw [hM]; exact max_eq_right (le_of_lt hgt)
      have hstep : scanTally (es ++ [e]) = ⟨some e.1, e.2, false⟩ := by
        rw [hsc]; unfold scanStep; rw [if_pos (by rw [ihmax]; exact hgt)]
      have hfail : ∀ f ∈ es, ¬ (f.2 == e.2) = true := by
        intro f hf hbe
        have hle : f.2 ≤ maxNat (es.map Prod.snd) :=
          maxNat_ge (List.mem_map_of_mem Prod.snd hf)
        rw [beq_iff_eq.mp hbe] at hle
        exact absurd hle (not_le.mpr hgt)
      refine ⟨by rw [hstep, hmax], ?_, ?_⟩
      · rw [hstep, hmax, List.find?_append,
           List.find?_eq_none.mpr hfail, Option.none_or]
        simp
      · rw [hstep, hmax, List.countP_append,
           List.countP_eq_zero.mpr hfail]
        simp
    · -- new entry ties the running maximum
      have hmax : maxNat ((es ++ [e]).map Prod.snd) = maxNat (es.map Prod.snd) := by
        rw [hM, ← heq, max_self]
      have hne : es ≠ [] := by
        intro hnil
        rw [hnil] at heq
        simp [maxNat] at heq
        omega
      have hattain : ∃ f ∈ es, (f.2 == maxNat (es.map Prod.snd)) = true := by
        have hmm : maxNat (es.map Prod.snd) ∈ es.map Prod.snd :=
          maxNat_mem (by simpa using hne)
        obtain ⟨f, hf, hfeq⟩ := List.mem_map.mp hmm
        exact ⟨f, hf, beq_iff_eq.mpr hfeq⟩
      have hstep : scanTally (es ++ [e]) =
          ⟨(scanTally es).dominant, (scanTally es).maxCount, true⟩ := by
        rw [hsc]; unfold scanStep
        rw [if_neg (by rw [ihmax]; omega), if_pos (by rw [ihmax]; omega)]
      have hsome : (es.find? (fun f => f.2 == maxNat (es.map Prod.snd))).isSome := by
        rw [List.find?_isSome]
        obtain ⟨f, hf, hfp⟩ := hattain
        exact ⟨f, hf, hfp⟩
      obtain ⟨a, ha⟩ := Option.isSome_iff_exists.mp hsome
      refine ⟨?_, ?_, ?_⟩
      · rw [hstep, hmax]; exact ihmax
      · rw [hstep, hmax, List.find?_append, ha, Option.or_some]
        show (scanTally es).dominant = (some a).map Prod.fst
        rw [ihdom, ha]
      · rw [hstep, hmax, List.countP_append]
        have hc1 : 0 < es.countP (fun f => f.2 == maxNat (es.map Prod.snd)) := by
          rw [List.countP_pos_iff]
          exact hattain
        have hc2 : List.countP (fun f => f.2 == maxNat (es.map Prod.snd)) [e] = 1 := by
          have hpe : (e.2 == maxNat (es.map Prod.snd)) = true :=
            beq_iff_eq.mpr heq.symm
          simp [List.countP_cons, hpe]
        rw [hc2]
        constructor
        · intro _; omega
        · intro _; rfl
    · -- new entry is below the running maximum: the state is unchanged
      have hmax : maxNat ((es ++ [e]).map Prod.snd) = maxNat (es.map Prod.snd) := by
        rw [hM]; exact max_eq_left (le_of_lt hlt)
      have hstep : scanTally (es ++ [e]) = scanTally es := by
        rw [hsc]; unfold scanStep
        rw [if_neg (by rw [ihmax]; omega), if_neg (by rw [ihmax]; omega)]
      have hpe : ¬ (e.2 == maxNat (es.map Prod.snd)) = true := by
        intro hbe
        rw [beq_iff_eq.mp hbe] at hlt
        omega
      refine ⟨?_, ?_, ?_⟩
      · rw [hstep, hmax]; exact ihmax
      · rw [hstep, hmax, List.find?_append]
        have h0 : [e].find? (fun f => f.2 == maxNat (es.map Prod.snd)) = none :=
          List.find?_eq_none.mpr
            (by intro x hx; rw [List.mem_singleton.mp hx]; exact hpe)
        rw [h0, Option.or_none]
        exact ihdom
      · rw [hstep, hmax, List.countP_append]
        have h0 : List.countP (fun f => f.2 == maxNat (es.map Prod.snd)) [e] = 0 :=
          List.countP_eq_zero.mpr
            (by intro x hx; rw [List.mem_singleton.mp hx]; exact hpe)
        rw [h0, Nat.add_zero]
        exact ihtie

/-! ### Reductions of `resolveColor` and permutation invariance of averaging -/

theorem resolveColor_of_tie {l : List Color}
    (h : (scanTally (tally l)).isTie = true) :
    resolveColor l = averageColors l := by
  simp only [resolveColor]
  split
  · rfl
  · rw [h]
    simp

theorem resolveColor_no_tie {l : List Color} {c : Color}
    (hdom : (scanTally (tally l)).dominant = some c)
    (htie : (scanTally (tally l)).isTie = false) :
    resolveColor l = if c == "" then averageColors l else c := by
  simp only [resolveColor]
  split
  · rename_i heq
    rw [hdom] at heq
    cases heq
  · rename_i c2 heq
    rw [hdom] at heq
    injection heq with heq
    subst heq
    rw [htie]
    simp

theorem optAdd_right_comm (a p q : Option Nat) :
    optAdd (optAdd a p) q = optAdd (optAdd a q) p := by
  rcases a with _ | a <;> rcases p with _ | p <;> rcases q with _ | q <;>
    (simp [optAdd]; try omega)

theorem sumRGB_perm {l₁ l₂ : List Color} (h : l₁.Perm l₂) :
    sumRGB l₁ = sumRGB l₂ := by
  unfold sumRGB
  refine h.foldl_eq' (fun x _ y _ z => ?_) _
  obtain ⟨r, g, b⟩ := z
  simp only [Prod.mk.injEq]
  exact ⟨optAdd_right_comm r _ _, optAdd_right_comm g _ _, optAdd_right_comm b _ _⟩

theorem averageColors_perm {l₁ l₂ : List Color} (h : l₁.Perm l₂) :
    averageColors l₁ = averageColors l₂ := by
  unfold averageColors
  rw [h.length_eq, sumRGB_perm h]

/-! ### The maximum tally, source side and spec side -/

theorem maxTally_spec (l : List Color) (hl : l ≠ []) :
    (∀ c ∈ l, l.count c ≤ maxNat ((tally l).map Prod.snd)) ∧
    (∃ c ∈ l, l.count c = maxNat ((tally l).map Prod.snd)) := by
  constructor
  · intro c hc
    obtain ⟨e, he, hee⟩ := List.mem_map.mp ((mem_tally_keys l c).mpr hc)
    have h1 : e.2 = l.count c := by rw [tally_count e he, hee]
    have h2 : e.2 ≤ maxNat ((tally l).map Prod.snd) :=
      maxNat_ge (List.mem_map_of_mem Prod.snd he)
    omega
  · have htne : tally l ≠ [] := by
      intro h0
      cases l with
      | nil => exact hl rfl
      | cons a l2 =>
        have ha : a ∈ (tally (a :: l2)).map Prod.fst :=
          (mem_tally_keys _ a).mpr (List.mem_cons_self a l2)
        rw [h0] at ha
        cases ha
    have hmm : maxNat ((tally l).map Prod.snd) ∈ (tally l).map Prod.snd :=
      maxNat_mem (fun hmap => htne (List.map_eq_nil_iff.mp hmap))
    obtain ⟨e, he, hee⟩ := List.mem_map.mp hmm
    refine ⟨e.1, (mem_tally_keys l e.1).mp (List.mem_map_of_mem Prod.fst he), ?_⟩
    rw [← tally_count e he, hee]

theorem specMaxTally_spec (l : List Color) (hl : l ≠ []) :
    (∀ c ∈ l, l.count c ≤ specMaxTally l) ∧
    (∃ c ∈ l, l.count c = specMaxTally l) := by
  constructor
  · intro c hc
    exact maxNat_ge (List.mem_map_of_mem _ hc)
  · have hmm : specMaxTally l ∈ l.map (fun c => l.count c) :=
      maxNat_mem (fun hmap => hl (List.map_eq_nil_iff.mp hmap))
    obtain ⟨c, hc, hcc⟩ := List.mem_map.mp hmm
    exact ⟨c, hc, hcc⟩

theorem tallyMax_eq_specMaxTally (l : List Color) :
    maxNat ((tally l).map Prod.snd) = specMaxTally l := by
  rcases eq_or_ne l [] with rfl | hl
  · rfl
  · obtain ⟨ub1, c1, hc1, he1⟩ := maxTally_spec l hl
    obtain ⟨ub2, c2, hc2, he2⟩ := specMaxTally_spec l hl
    apply le_antisymm
    · rw [← he1]; exact ub2 c1 hc1
    · rw [← he2]; exact ub1 c2 hc2

theorem specMaxTally_perm {l₁ l₂ : List Color} (h : l₁.Perm l₂) :
    specMaxTally l₁ = specMaxTally l₂ := by
  rcases eq_or_ne l₁ [] with rfl | hne
  · rw [h.symm.eq_nil]
  · have hne₂ : l₂ ≠ [] := fun h0 => hne (by rw [h0] at h; exact h.eq_nil)
    obtain ⟨ub1, c1, hc1, he1⟩ := specMaxTally_spec l₁ hne
    obtain ⟨ub2, c2, hc2, he2⟩ := specMaxTally_spec l₂ hne₂
    apply le_antisymm
    · rw [← he1, h.count_eq c1]
      exact ub2 c1 (h.mem_iff.mp hc1)
    · rw [← he2, ← h.count_eq c2]
      exact ub1 c2 (h.mem_iff.mpr hc2)

/-! ### Attainers of the maximum tally -/

theorem tally_countP_eq (l : List Color) (M : Nat) :
    (tally l).countP (fun e => e.2 == M) =
      ((tally l).map Prod.fst).countP (fun c => l.count c == M) := by
  rw [List.countP_map]
  apply List.countP_congr
  intro e he
  simp only [Function.comp_apply]
  rw [tally_count e he]

theorem tally_keys_perm {l₁ l₂ : List Color} (h : l₁.Perm l₂) :
    ((tally l₁).map Prod.fst).Perm ((tally l₂).map Prod.fst) := by
  rw [List.perm_ext_iff_of_nodup (tally_keys_nodup l₁) (tally_keys_nodup l₂)]
  intro c
  rw [mem_tally_keys, mem_tally_keys]
  exact h.mem_iff

theorem tally_attainers_perm {l₁ l₂ : List Color} (h : l₁.Perm l₂) (M : Nat) :
    (tally l₁).countP (fun e => e.2 == M) =
      (tally l₂).countP (fun e => e.2 == M) := by
  rw [tally_countP_eq, tally_countP_eq]
  rw [(tally_keys_perm h).countP_eq (fun c => l₁.count c == M)]
  apply List.countP_congr
  intro c hc
  rw [h.count_eq c]

theorem tally_attainer_exists {l : List Color} (hl : l ≠ []) :
    ∃ e ∈ tally l, (e.2 == maxNat ((tally l).map Prod.snd)) = true := by
  obtain ⟨-, c, hc, hcount⟩ := maxTally_spec l hl
  obtain ⟨e, he, hee⟩ := List.mem_map.mp ((mem_tally_keys l c).mpr hc)
  refine ⟨e, he, beq_iff_eq.mpr ?_⟩
  rw [tally_count e he, hee, hcount]

theorem tally_attainer_unique {l : List Color}
    (hno : ¬ 2 ≤ (tally l).countP
      (fun e => e.2 == maxNat ((tally l).map Prod.snd)))
    {c d : Color} (hc : c ∈ l) (hd : d ∈ l)
    (hcc : l.count c = maxNat ((tally l).map Prod.snd))
    (hdc : l.count d = maxNat ((tally l).map Prod.snd)) : c = d := by
  by_contra hne
  obtain ⟨e1, he1, hee1⟩ := List.mem_map.mp ((mem_tally_keys l c).mpr hc)
  obtain ⟨e2, he2, hee2⟩ := List.mem_map.mp ((mem_tally_keys l d).mpr hd)
  have hp1 : (e1.2 == maxNat ((tally l).map Prod.snd)) = true :=
    beq_iff_eq.mpr (by rw [tally_count e1 he1, hee1, hcc])
  have hp2 : (e2.2 == maxNat ((tally l).map Prod.snd)) = true :=
    beq_iff_eq.mpr (by rw [tally_count e2 he2, hee2, hdc])
  have hne12 : e1 ≠ e2 := fun hh => hne (by rw [← hee1, hh, hee2])
  apply hno
  rw [List.countP_eq_length_filter]
  exact two_le_length_of_two_mem (List.mem_filter.mpr ⟨he1, hp1⟩)
    (List.mem_filter.mpr ⟨he2, hp2⟩) hne12

/-- C9: the resolver is deterministic in the multiset of neighbor colors:
`getNewCellColor` factors through `resolveColor`, and `resolveColor` returns
the same color on any two permutations of the neighbor color list — the unique
strict maximum is returned independent of iteration order, and every tie case
averages the same multiset. -/
theorem c9_resolver_perm_invariant :
    (∀ (b : Board) (x y : Int),
      getNewCellColor b x y = resolveColor (getLiveNeighbors b x y)) ∧
    (∀ l₁ l₂ : List Color, l₁.Perm l₂ → resolveColor l₁ = resolveColor l₂) := by
  refine ⟨fun b x y => rfl, fun l₁ l₂ h => ?_⟩
  rcases eq_or_ne l₁ [] with rfl | hne
  · rw [h.symm.eq_nil]
  · have hne₂ : l₂ ≠ [] := fun h0 => hne (by rw [h0] at h; exact h.eq_nil)
    obtain ⟨hm1, hd1, ht1⟩ := scan_char (tally l₁) tally_count_pos
    obtain ⟨hm2, hd2, ht2⟩ := scan_char (tally l₂) tally_count_pos
    have hMeq : maxNat ((tally l₁).map Prod.snd) =
        maxNat ((tally l₂).map Prod.snd) := by
      rw [tallyMax_eq_specMaxTally, tallyMax_eq_specMaxTally]
      exact specMaxTally_perm h
    have hcnt : (tally l₁).countP
          (fun e => e.2 == maxNat ((tally l₁).map Prod.snd)) =
        (tally l₂).countP
          (fun e => e.2 == maxNat ((tally l₂).map Prod.snd)) := by
      rw [← hMeq]
      exact tally_attainers_perm h _
    by_cases htie : 2 ≤ (tally l₁).countP
        (fun e => e.2 == maxNat ((tally l₁).map Prod.snd))
    · have t1 : (scanTally (tally l₁)).isTie = true := ht1.mpr htie
      have t2 : (scanTally (tally l₂)).isTie = true :=
        ht2.mpr (by rw [← hcnt]; exact htie)
      rw [resolveColor_of_tie t1, resolveColor_of_tie t2]
      exact averageColors_perm h
    · obtain ⟨e1, he1, hp1e⟩ := tally_attainer_exists hne
      obtain ⟨e2, he2, hp2e⟩ := tally_attainer_exists hne₂
      have hf1 : ((tally l₁).find?
          (fun f => f.2 == maxNat ((tally l₁).map Prod.snd))).isSome :=
        List.find?_isSome.mpr ⟨e1, he1, hp1e⟩
      have hf2 : ((tally l₂).find?
          (fun f => f.2 == maxNat ((tally l₂).map Prod.snd))).isSome :=
        List.find?_isSome.mpr ⟨e2, he2, hp2e⟩
      obtain ⟨a1, ha1⟩ := Option.isSome_iff_exists.mp hf1
      obtain ⟨a2, ha2⟩ := Option.isSome_iff_exists.mp hf2
      have hdom1 : (scanTally (tally l₁)).dominant = some a1.1 := by
        rw [hd1, ha1]; rfl
      have hdom2 : (scanTally (tally l₂)).dominant = some a2.1 := by
        rw [hd2, ha2]; rfl
      have htien1 : (scanTally (tally l₁)).isTie = false := by
        cases hti : (scanTally (tally l₁)).isTie
        · rfl
        · exact absurd (ht1.mp hti) htie
      have htien2 : (scanTally (tally l₂)).isTie = false := by
        cases hti : (scanTally (tally l₂)).isTie
        · rfl
        · have h2c := ht2.mp hti
          rw [← hcnt] at h2c
          exact absurd h2c htie
      have ha1mem : a1 ∈ tally l₁ := List.mem_of_find?_eq_some ha1
      have ha2mem : a2 ∈ tally l₂ := List.mem_of_find?_eq_some ha2
      have ha1inl : a1.1 ∈ l₁ :=
        (mem_tally_keys l₁ a1.1).mp (List.mem_map_of_mem Prod.fst ha1mem)
      have ha2inl : a2.1 ∈ l₂ :=
        (mem_tally_keys l₂ a2.1).mp (List.mem_map_of_mem Prod.fst ha2mem)
      have hq1 := List.find?_some ha1
      have hq2 := List.find?_some ha2
      simp only [] at hq1 hq2
      have ha1count : l₁.count a1.1 = maxNat ((tally l₁).map Prod.snd) := by
        rw [← tally_count a1 ha1mem]
        exact beq_iff_eq.mp hq1
      have ha2count : l₂.count a2.1 = maxNat ((tally l₂).map Prod.snd) := by
        rw [← tally_count a2 ha2mem]
        exact beq_iff_eq.mp hq2
      have ha2inl1 : a2.1 ∈ l₁ := h.mem_iff.mpr ha2inl
      have ha2count1 : l₁.count a2.1 = maxNat ((tally l₁).map Prod.snd) := by
        rw [h.count_eq a2.1, hMeq]
        exact ha2count
      have hcc : a1.1 = a2.1 :=
        tally_attainer_unique htie ha1inl ha2inl1 ha1count ha2count1
      rw [resolveColor_no_tie hdom1 htien1, resolveColor_no_tie hdom2 htien2,
         ← hcc]
      by_cases hcE : (a1.1 == "") = true
      · rw [if_pos hcE, if_pos hcE]
        exact averageColors_perm h
      · rw [if_neg hcE, if_neg hcE]

/-- C9 witness: two permutations of a concrete neighbor list resolve equally. -/
theorem c9_resolver_perm_invariant_witness :
    List.Perm ["#000000", "#ffffff", "#000000"] ["#000000", "#000000", "#ffffff"] ∧
    resolveColor ["#000000", "#ffffff", "#000000"] =
      resolveColor ["#000000", "#000000", "#ffffff"] :=
  ⟨by decide, c9_resolver_perm_invariant.2 _ _ (by decide)⟩

/-! ### C1: the tie case at a genuine newborn -/

theorem length_filterMap_eq_sum {α β : Type} (f : α → Option β) (l : List α) :
    (l.filterMap f).length =
      (l.map (fun a => if (f a).isSome then 1 else 0)).sum := by
  induction l with
  | nil => rfl
  | cons a l ih =>
    rw [List.filterMap_cons, List.map_cons, List.sum_cons]
    cases hf : f a with
    | none => simpa using ih
    | some bb =>
      simp only [List.length_cons, Option.isSome_some, if_true]
      rw [ih]
      omega

theorem getLiveNeighbors_length (b : Board) (x y : Int) :
    (getLiveNeighbors b x y).length = mooreCount b x y := by
  unfold getLiveNeighbors mooreCount
  rw [length_filterMap_eq_sum]
  congr 1
  apply List.map_congr_left
  intro d _
  cases hb : boardAt b (x + d.1) (y + d.2) with
  | none => simp [hb, truthy]
  | some c =>
    by_cases hc : c = ""
    · simp [hb, hc, truthy]
    · simp [hb, hc, truthy]

/-- C1: at a newborn position (dead, exactly 3 live Moore neighbors), when two
or more distinct colors tie for the highest tally, `getNewCellColor` returns
the rounded channel-wise mean of exactly the neighbor colors tied for the
maximum — with 3 neighbors a tie forces all tallies to 1, so the tied multiset
is the whole neighbor list, which is what the code averages. -/
theorem c1_tie_average (b : Board) (x y : Int)
    (_hdead : truthy (boardAt b x y) = false)
    (hcnt : mooreCount b x y = 3)
    (htie : specHasTie (getLiveNeighbors b x y)) :
    getNewCellColor b x y =
      averageColors (specTiedColors (getLiveNeighbors b x y)) := by
  have hlen : (getLiveNeighbors b x y).length = 3 := by
    rw [getLiveNeighbors_length, hcnt]
  obtain ⟨c, hc, d, hd, hcd, hcc, hdc⟩ := htie
  have hlne : getLiveNeighbors b x y ≠ [] := List.ne_nil_of_mem hc
  have hM1 : specMaxTally (getLiveNeighbors b x y) = 1 := by
    have hsum : (getLiveNeighbors b x y).count c +
        (getLiveNeighbors b x y).count d ≤ 3 := by
      rw [← hlen]
      exact count_pair_le_length _ hcd
    have h1 : 0 < (getLiveNeighbors b x y).count c := List.count_pos_iff.mpr hc
    rw [hcc, hdc] at hsum
    rw [hcc] at h1
    omega
  have hall1 : ∀ e ∈ getLiveNeighbors b x y,
      (getLiveNeighbors b x y).count e = 1 := by
    intro e he
    have hub := (specMaxTally_spec _ hlne).1 e he
    have hlb : 0 < (getLiveNeighbors b x y).count e := List.count_pos_iff.mpr he
    rw [hM1] at hub
    omega
  have hfilter : specTiedColors (getLiveNeighbors b x y) =
      getLiveNeighbors b x y := by
    unfold specTiedColors
    apply List.filter_eq_self.mpr
    intro a ha
    rw [hall1 a ha, hM1]
    decide
  rw [hfilter]
  unfold getNewCellColor
  apply resolveColor_of_tie
  obtain ⟨hm, hdd, ht⟩ := scan_char (tally (getLiveNeighbors b x y)) tally_count_pos
  apply ht.mpr
  have hMt : maxNat ((tally (getLiveNeighbors b x y)).map Prod.snd) = 1 := by
    rw [tallyMax_eq_specMaxTally, hM1]
  obtain ⟨e1, he1, hee1⟩ := List.mem_map.mp ((mem_tally_keys _ c).mpr hc)
  obtain ⟨e2, he2, hee2⟩ := List.mem_map.mp ((mem_tally_keys _ d).mpr hd)
  have hp1 : (e1.2 == maxNat ((tally (getLiveNeighbors b x y)).map Prod.snd)) = true :=
    beq_iff_eq.mpr (by rw [tally_count e1 he1, hee1, hall1 c hc, hMt])
  have hp2 : (e2.2 == maxNat ((tally (getLiveNeighbors b x y)).map Prod.snd)) = true :=
    beq_iff_eq.mpr (by rw [tally_count e2 he2, hee2, hall1 d hd, hMt])
  have hne12 : e1 ≠ e2 := fun hh => hcd (by rw [← hee1, hh, hee2])
  rw [List.countP_eq_length_filter]
  exact two_le_length_of_two_mem (List.mem_filter.mpr ⟨he1, hp1⟩)
    (List.mem_filter.mpr ⟨he2, hp2⟩) hne12

/-- C1 witness: three distinct-colored neighbors around `(1,1)` — a newborn
with an all-way tie; the result is the mean of exactly the tied colors. -/
theorem c1_tie_average_witness :
    truthy (boardAt triBoard 1 1) = false ∧
    mooreCount triBoard 1 1 = 3 ∧
    specHasTie (getLiveNeighbors triBoard 1 1) ∧
    getNewCellColor triBoard 1 1 =
      averageColors (specTiedColors (getLiveNeighbors triBoard 1 1)) :=
  ⟨by decide, by decide, by decide,
   c1_tie_average triBoard 1 1 (by decide) (by decide) (by decide)⟩

end GameOfLife
